import Mathlib

/-!
Verification development for the RFM-Analysis repository (rfm.py).

The three pandas functions of the source are shallowly embedded:

-- get_rfm_values : filters transactions to the time window
   [now - time_horizon, now], computes days_before = floor(now - t) per
   transaction, groups by customer and aggregates
   (min days_before, count, sum amount), then renames the columns with the
   literal mapping {days_before -> recency, order_approved_at -> frequency,
   money -> monetary}.  Timestamps are modelled as rationals measured in days.

-- get_rfm_score : computes max_score - 1 linear-interpolation quantiles
   (pandas default interpolation) of the metric column, checks them for
   duplicates, and either raises QuantileDuplicate (carrying the rounded
   quantile values), retries at max_score - 1 when auto adjustment is on,
   or bins the values with pd.cut over the edges
   [min - 1, q_1, ..., q_{k-1}, max + 1] with include_lowest=True and the
   integer labels 1..max_score (reversed for the recency tag), stringified.

-- get_rfm_agg : concatenates the three score strings of each row into a
   segment key, groups by the key counting rows, and sorts the result by
   key in descending lexicographic order.

Python floats are idealised as exact rationals; the pandas DataFrame is
modelled per function by the data the function actually touches, plus a
named-column table (Table) used where column names and in-place column
assignment matter.
-/

/-- Minimum of a rational column, as pandas Series.min on nonempty data. -/
def listMin : List ℚ → ℚ
  | [] => 0
  | x :: xs => xs.foldl min x

/-- Maximum of a rational column, as pandas Series.max on nonempty data. -/
def listMax : List ℚ → ℚ
  | [] => 0
  | x :: xs => xs.foldl max x

/-- Minimum of an integer column (used for the recency aggregation). -/
def listMinZ : List ℤ → ℤ
  | [] => 0
  | x :: xs => xs.foldl min x

/-- pandas Series.quantile with the default linear interpolation:
position q * (n - 1) on the sorted values, interpolating between the two
neighbouring order statistics.  The position is nonnegative for every
fraction q used by the source, so its floor is taken as a natural number. -/
def quantile (vals : List ℚ) (q : ℚ) : ℚ :=
  let s := List.insertionSort (fun a b => a ≤ b) vals
  if s.length = 0 then 0
  else
    let pos : ℚ := q * ((s.length : ℚ) - 1)
    let i : ℕ := ⌊pos⌋₊
    let lo := s.getD i 0
    let hi := s.getD (i + 1) lo
    lo + (pos - (i : ℚ)) * (hi - lo)

/-- The list of quantile values at fractions 1/k, ..., (k-1)/k computed by
get_rfm_score for max_score = k (source: quintile_list / quantiles). -/
def quantList (vals : List ℚ) (k : ℕ) : List ℚ :=
  (List.range (k - 1)).map (fun i => quantile vals ((((i : ℕ) : ℚ) + 1) / (k : ℚ)))

/-- Index search of pd.cut over the upper bin edges: first index i with
v ≤ edge i (bins are open-left, closed-right). -/
def goIdx (v : ℚ) : List ℚ → Option ℕ
  | [] => none
  | e :: es => if v ≤ e then some 0 else (goIdx v es).map (fun i => i + 1)

/-- Bin index of pd.cut with include_lowest=True over edges e_0 < ... < e_k:
values below e_0 or above e_k get no bin, the first bin is [e_0, e_1] and
bin i for i ≥ 1 is (e_i, e_{i+1}]. -/
def binIndex (edges : List ℚ) (v : ℚ) : Option ℕ :=
  match edges with
  | [] => none
  | e :: es => if v < e then none else goIdx v es

/-- pd.cut followed by astype(str): the i-th label for the bin of v, and the
string nan when v falls outside every bin. -/
def cutStr (edges : List ℚ) (labels : List String) (v : ℚ) : String :=
  match binIndex edges v with
  | some i => labels.getD i "nan"
  | none => "nan"

/-- The label list of get_rfm_score: the scores 1..k as strings, reversed
when the metric tag is the recency tag r (source: scores_list). -/
def labelsFor (tag : String) (k : ℕ) : List String :=
  if tag = "r" then ((List.range k).map (fun i => toString (i + 1))).reverse
  else (List.range k).map (fun i => toString (i + 1))

/-- The bin edges passed to pd.cut by get_rfm_score:
[min - 1, q_1, ..., q_{k-1}, max + 1] (source: bins_cutoffs widened by 1 at
both ends). -/
def binEdges (vals : List ℚ) (k : ℕ) : List ℚ :=
  (listMin vals - 1) :: (quantList vals k ++ [listMax vals + 1])

/-- Round-half-to-even on a rational, as numpy rounding of the idealised
exact value. -/
def roundHalfEven (x : ℚ) : ℤ :=
  if x - ⌊x⌋ < 1 / 2 then ⌊x⌋
  else if 1 / 2 < x - ⌊x⌋ then ⌊x⌋ + 1
  else if ⌊x⌋ % 2 = 0 then ⌊x⌋ else ⌊x⌋ + 1

/-- DataFrame.round(n): round to n decimal places, half to even. -/
def roundTo (n : ℕ) (x : ℚ) : ℚ := (roundHalfEven (x * 10 ^ n) : ℚ) / 10 ^ n

/-- The QuantileDuplicate exception of the source, carrying the computed
quantile values rounded to round_info_val decimals. -/
structure QuantileDuplicate where
  quantiles : List ℚ
deriving DecidableEq

/-- get_rfm_score on the metric column vals with metric tag tag,
auto_max_score_adjust flag auto, round_info_val rv and the given max_score
(last argument).  Returns the score strings, or the QuantileDuplicate error.
For max_score > 1 the quantiles are computed and checked for duplicates:
on duplicates the call either retries at max_score - 1 (auto) or fails;
otherwise the values are binned by pd.cut over binEdges with labelsFor.
For max_score ≤ 1 every row scores "1". -/
def get_rfm_score (vals : List ℚ) (tag : String) (auto : Bool) (rv : ℕ) :
    ℕ → Except QuantileDuplicate (List String)
  | ms + 2 =>
    if (quantList vals (ms + 2)).Nodup then
      .ok (vals.map (cutStr (binEdges vals (ms + 2)) (labelsFor tag (ms + 2))))
    else if auto then
      get_rfm_score vals tag auto rv (ms + 1)
    else
      .error ⟨(quantList vals (ms + 2)).map (roundTo rv)⟩
  | _ => .ok (vals.map (fun _ => "1"))

/-- A cell of a pandas DataFrame column: numeric or string. -/
inductive Val where
  | num : ℚ → Val
  | str : String → Val
deriving DecidableEq

/-- A DataFrame as an association list of named columns. -/
abbrev Table := List (String × List Val)

/-- Read a column as numeric data; none when a cell is not numeric. -/
def valsQ : List Val → Option (List ℚ)
  | [] => some []
  | Val.num x :: rest => (valsQ rest).map (fun r => x :: r)
  | Val.str _ :: _ => none

/-- Read a column as string data; none when a cell is not a string. -/
def valsS : List Val → Option (List String)
  | [] => some []
  | Val.str s :: rest => (valsS rest).map (fun r => s :: r)
  | Val.num _ :: _ => none

/-- The column of the given name, when present. -/
def getCol (t : Table) (c : String) : Option (List Val) :=
  (t.find? (fun p => p.1 == c)).map (fun p => p.2)

/-- The column of the given name as numeric data. -/
def getColQ (t : Table) (c : String) : Option (List ℚ) :=
  (getCol t c).bind valsQ

/-- The column of the given name as string data. -/
def getColS (t : Table) (c : String) : Option (List String) :=
  (getCol t c).bind valsS

/-- In-place column assignment df[c] = col: replaces the column when the
name exists, otherwise appends it. -/
def setCol (t : Table) (c : String) (col : List Val) : Table :=
  if t.any (fun p => p.1 == c) then
    t.map (fun p => if p.1 == c then (c, col) else p)
  else
    t ++ [(c, col)]

/-- The caller's DataFrame after get_rfm_score returns or raises: the source
assigns df[score_name] = scores on the passed-in df after the quantile
check, so on success the caller's table gains the score column, while on a
QuantileDuplicate (raised before the assignment) it is left unchanged.
When the metric column is missing or non-numeric the tabular engine fails
before any mutation and the table is likewise unchanged. -/
def scorePost (t : Table) (score_column score_name : String) (auto : Bool)
    (rv ms : ℕ) : Table :=
  match getColQ t score_column with
  | none => t
  | some vals =>
    match get_rfm_score vals score_name auto rv ms with
    | .ok scores => setCol t score_name (scores.map Val.str)
    | .error _ => t

/-- The caller's DataFrame after get_rfm_agg: the source assigns
df[rfm] = df[r] + df[f] + df[m] on the passed-in df, so the caller's table
gains the concatenated segment-key column. -/
def aggPost (t : Table) (r_name f_name m_name : String) : Table :=
  match getColS t r_name, getColS t f_name, getColS t m_name with
  | some rs, some fs, some ms =>
    setCol t "rfm"
      (((List.zipWith (fun a b => a ++ b) rs
        (List.zipWith (fun a b => a ++ b) fs ms))).map Val.str)
  | _, _, _ => t

/-- A transaction record: customer id, amount, timestamp (in days,
idealised as a rational number of days). -/
structure Txn where
  cust : String
  amount : ℚ
  tstamp : ℚ
deriving DecidableEq

/-- A row of the metric table produced by get_rfm_values. -/
structure RfmRow where
  cust : String
  recency : ℤ
  frequency : ℕ
  monetary : ℚ
deriving DecidableEq

/-- The time-window filter of get_rfm_values:
now - time_horizon ≤ t and t ≤ now (both inclusive, as in the query). -/
def inWindow (now th : ℚ) (x : Txn) : Bool :=
  decide (now - th ≤ x.tstamp) && decide (x.tstamp ≤ now)

/-- The group keys of groupby: each customer id occurring among the rows,
once. -/
def custsOf (l : List Txn) : List String :=
  (l.map (fun x => x.cust)).dedup

/-- get_rfm_values: filter the transactions to the window, then one row per
customer with recency = min over its transactions of the whole days before
now, frequency = its number of transactions, monetary = the sum of its
amounts. -/
def get_rfm_values (txns : List Txn) (now : ℚ) (th : ℚ) : List RfmRow :=
  let fl := txns.filter (inWindow now th)
  (custsOf fl).map (fun c =>
    let g := fl.filter (fun x => x.cust == c)
    { cust := c
      recency := listMinZ (g.map (fun x => ⌊now - x.tstamp⌋))
      frequency := g.length
      monetary := (g.map (fun x => x.amount)).sum })

/-- The rename applied by get_rfm_values to the aggregated columns: the
Python dict is built with the keys days_before, order_approved_at and the
caller's money column in that order, so a later key overwrites an earlier
equal one; lookup therefore checks money first. -/
def renameMap (money : String) (c : String) : String :=
  if c = money then "monetary"
  else if c = "order_approved_at" then "frequency"
  else if c = "days_before" then "recency"
  else c

/-- The column names of the get_rfm_values result: the grouped columns
[unit_id, days_before, time, money] after the rename.  Note the rename
targets the literal name order_approved_at, not the caller's time column. -/
def get_rfm_values_columns (unit_id money time : String) : List String :=
  [unit_id, "days_before", time, money].map (renameMap money)

/-- A row of the scored table fed to get_rfm_agg: one customer with the
three score strings. -/
structure ScoredRow where
  uid : String
  r : String
  f : String
  m : String
deriving DecidableEq

/-- The segment key of a scored row: the concatenation r + f + m. -/
def rfmKey (row : ScoredRow) : String := row.r ++ row.f ++ row.m

/-- get_rfm_agg (use_bins=False): group the rows by segment key counting
members, then sort by key in descending lexicographic order. -/
def get_rfm_agg (rows : List ScoredRow) : List (String × ℕ) :=
  (List.insertionSort (fun a b => a ≤ b) (rows.map rfmKey).dedup).reverse.map
    (fun k => (k, (rows.map rfmKey).count k))

/-! ### Helper lemmas -/

theorem foldl_min_le_start (xs : List ℚ) (x : ℚ) : xs.foldl min x ≤ x := by
  induction xs generalizing x with
  | nil => exact le_refl x
  | cons y ys ih => exact le_trans (ih (min x y)) (min_le_left x y)

theorem foldl_min_le_mem (xs : List ℚ) (x v : ℚ) (hv : v ∈ xs) :
    xs.foldl min x ≤ v := by
  induction xs generalizing x with
  | nil => cases hv
  | cons y ys ih =>
    rcases List.mem_cons.mp hv with h | h
    · subst h
      exact le_trans (foldl_min_le_start ys (min x v)) (min_le_right x v)
    · exact ih (min x y) h

theorem listMin_le (l : List ℚ) (v : ℚ) (hv : v ∈ l) : listMin l ≤ v := by
  cases l with
  | nil => cases hv
  | cons x xs =>
    rcases List.mem_cons.mp hv with h | h
    · subst h; exact foldl_min_le_start xs v
    · exact foldl_min_le_mem xs x v h

theorem start_le_foldl_max (xs : List ℚ) (x : ℚ) : x ≤ xs.foldl max x := by
  induction xs generalizing x with
  | nil => exact le_refl x
  | cons y ys ih => exact le_trans (le_max_left x y) (ih (max x y))

theorem mem_le_foldl_max (xs : List ℚ) (x v : ℚ) (hv : v ∈ xs) :
    v ≤ xs.foldl max x := by
  induction xs generalizing x with
  | nil => cases hv
  | cons y ys ih =>
    rcases List.mem_cons.mp hv with h | h
    · subst h
      exact le_trans (le_max_right x v) (start_le_foldl_max ys (max x v))
    · exact ih (max x y) h

theorem le_listMax (l : List ℚ) (v : ℚ) (hv : v ∈ l) : v ≤ listMax l := by
  cases l with
  | nil => cases hv
  | cons x xs =>
    rcases List.mem_cons.mp hv with h | h
    · subst h; exact start_le_foldl_max xs v
    · exact mem_le_foldl_max xs x v h

theorem quantList_length (vals : List ℚ) (k : ℕ) :
    (quantList vals k).length = k - 1 := by
  unfold quantList
  rw [List.length_map, List.length_range]

theorem goIdx_append_some (v e : ℚ) (h : v ≤ e) (qs : List ℚ) :
    ∃ i, goIdx v (qs ++ [e]) = some i ∧ i < qs.length + 1 := by
  induction qs with
  | nil => exact ⟨0, by simp [goIdx, h], Nat.zero_lt_succ 0⟩
  | cons q qs ih =>
    by_cases hq : v ≤ q
    · exact ⟨0, by simp [goIdx, hq], Nat.zero_lt_succ _⟩
    · obtain ⟨i, hi, hlt⟩ := ih
      refine ⟨i + 1, ?_, ?_⟩
      · simp [goIdx, hq, hi]
      · simpa using Nat.succ_lt_succ hlt

theorem goIdx_mono (v w : ℚ) (hvw : v ≤ w) :
    ∀ (es : List ℚ) (i j : ℕ), goIdx v es = some i → goIdx w es = some j →
    i ≤ j := by
  intro es
  induction es with
  | nil => intro i j hi _; simp [goIdx] at hi
  | cons e es ih =>
    intro i j hi hj
    by_cases hv : v ≤ e
    · simp [goIdx, hv] at hi
      omega
    · have hw : ¬ w ≤ e := fun hwle => hv (le_trans hvw hwle)
      simp [goIdx, hv] at hi
      simp [goIdx, hw] at hj
      obtain ⟨a, ha, ha2⟩ := hi
      obtain ⟨b, hb, hb2⟩ := hj
      have := ih a b ha hb
      omega

theorem binIndex_spec (vals : List ℚ) (k : ℕ) (v : ℚ)
    (h0 : listMin vals ≤ v) (h1 : v ≤ listMax vals) :
    ∃ i, binIndex (binEdges vals k) v = some i ∧ i < k - 1 + 1 := by
  have hv : ¬ v < listMin vals - 1 := by
    push_neg
    linarith
  have hle : v ≤ listMax vals + 1 := by linarith
  obtain ⟨i, hi, hlt⟩ := goIdx_append_some v (listMax vals + 1) hle (quantList vals k)
  refine ⟨i, ?_, ?_⟩
  · simp [binIndex, binEdges, hv, hi]
  · rwa [quantList_length vals k] at hlt

theorem binIndex_mono (edges : List ℚ) (v w : ℚ) (hvw : v ≤ w) (i j : ℕ)
    (hi : binIndex edges v = some i) (hj : binIndex edges w = some j) :
    i ≤ j := by
  cases edges with
  | nil => simp [binIndex] at hi
  | cons e es =>
    by_cases hv : v < e
    · simp [binIndex, hv] at hi
    · by_cases hw : w < e
      · exact absurd (lt_of_le_of_lt hvw hw) hv
      · simp [binIndex, hv] at hi
        simp [binIndex, hw] at hj
        exact goIdx_mono v w hvw es i j hi hj

theorem labelsFor_length (tag : String) (k : ℕ) : (labelsFor tag k).length = k := by
  by_cases h : tag = "r" <;> simp [labelsFor, h]

theorem labelsFor_getD (tag : String) (k i : ℕ) (hi : i < k) :
    (labelsFor tag k).getD i "nan" =
      if tag = "r" then toString (k - i) else toString (i + 1) := by
  by_cases h : tag = "r"
  · have hidx : k - 1 - i < k := by omega
    unfold labelsFor
    simp only [if_pos h]
    rw [List.getD_eq_getElem?_getD, List.getElem?_reverse (by simpa using hi),
      List.getElem?_map, List.getElem?_range (by simpa using hidx)]
    simp only [List.length_map, List.length_range, Option.map_some', Option.getD_some]
    congr 1
    omega
  · unfold labelsFor
    simp only [if_neg h]
    rw [List.getD_eq_getElem?_getD, List.getElem?_map, List.getElem?_range hi]
    simp

theorem labelsFor_mem (tag : String) (k : ℕ) (s : String)
    (hs : s ∈ labelsFor tag k) : ∃ j, 1 ≤ j ∧ j ≤ k ∧ s = toString j := by
  have hbase : s ∈ (List.range k).map (fun i => toString (i + 1)) := by
    by_cases h : tag = "r"
    · simpa [labelsFor, h] using hs
    · simpa [labelsFor, h] using hs
  obtain ⟨i, hik, hsi⟩ := List.mem_map.mp hbase
  exact ⟨i + 1, by omega, by have := List.mem_range.mp hik; omega, hsi.symm⟩

theorem score_zero (vals : List ℚ) (tag : String) (auto : Bool) (rv : ℕ) :
    get_rfm_score vals tag auto rv 0 = .ok (vals.map (fun _ => "1")) := rfl

theorem score_one (vals : List ℚ) (tag : String) (auto : Bool) (rv : ℕ) :
    get_rfm_score vals tag auto rv 1 = .ok (vals.map (fun _ => "1")) := rfl

theorem score_step (vals : List ℚ) (tag : String) (auto : Bool) (rv ms : ℕ) :
    get_rfm_score vals tag auto rv (ms + 2) =
      if (quantList vals (ms + 2)).Nodup then
        .ok (vals.map (cutStr (binEdges vals (ms + 2)) (labelsFor tag (ms + 2))))
      else if auto then
        get_rfm_score vals tag auto rv (ms + 1)
      else
        .error ⟨(quantList vals (ms + 2)).map (roundTo rv)⟩ := rfl

theorem cutStr_spec (vals : List ℚ) (k : ℕ) (tag : String) (v : ℚ)
    (hv : v ∈ vals) :
    ∃ i, i < k - 1 + 1 ∧
      cutStr (binEdges vals k) (labelsFor tag k) v = (labelsFor tag k).getD i "nan" ∧
      binIndex (binEdges vals k) v = some i := by
  obtain ⟨i, hi, hlt⟩ :=
    binIndex_spec vals k v (listMin_le vals v hv) (le_listMax vals v hv)
  exact ⟨i, hlt, by simp [cutStr, hi], hi⟩

/-- Every run of get_rfm_score that returns ok does so at an effective
max_score that is at most the requested one: either the bottom branch at
max_score ≤ 1 where every score is the string 1, or a branch at an
effective max_score of at least 2 whose quantiles have no duplicate, where
the result is the pd.cut binning.  In both cases the same ok value is what
a run with the adjustment disabled produces at the effective max_score. -/
theorem score_ok_shape (vals : List ℚ) (tag : String) (auto : Bool) (rv : ℕ) :
    ∀ ms l, get_rfm_score vals tag auto rv ms = .ok l →
    ∃ ms', ms' ≤ ms ∧ get_rfm_score vals tag false rv ms' = .ok l ∧
      ((ms' = min ms 1 ∧ l = vals.map (fun _ => "1")) ∨
       (2 ≤ ms' ∧ (quantList vals ms').Nodup ∧
        l = vals.map (cutStr (binEdges vals ms') (labelsFor tag ms')))) := by
  intro ms
  induction ms with
  | zero =>
    intro l h
    rw [score_zero] at h
    refine ⟨0, le_refl 0, ?_, Or.inl ⟨rfl, (Except.ok.inj h).symm⟩⟩
    rw [score_zero, h]
  | succ n ih =>
    cases n with
    | zero =>
      intro l h
      rw [score_one] at h
      refine ⟨1, le_refl 1, ?_, Or.inl ⟨rfl, (Except.ok.inj h).symm⟩⟩
      rw [score_one, h]
    | succ m =>
      intro l h
      rw [score_step] at h
      by_cases hd : (quantList vals (m + 2)).Nodup
      · rw [if_pos hd] at h
        refine ⟨m + 2, le_refl _, ?_, Or.inr ⟨by omega, hd, (Except.ok.inj h).symm⟩⟩
        rw [score_step, if_pos hd, h]
      · rw [if_neg hd] at h
        cases auto with
        | false => simp at h
        | true =>
          simp only [if_pos] at h
          obtain ⟨ms', hle, hok, hshape⟩ := ih l h
          refine ⟨ms', by omega, hok, ?_⟩
          rcases hshape with ⟨hm, hl⟩ | hr
          · exact Or.inl ⟨by omega, hl⟩
          · exact Or.inr hr

theorem score_ge2 (vals : List ℚ) (tag : String) (auto : Bool) (rv ms : ℕ)
    (h : 2 ≤ ms) :
    get_rfm_score vals tag auto rv ms =
      if (quantList vals ms).Nodup then
        .ok (vals.map (cutStr (binEdges vals ms) (labelsFor tag ms)))
      else if auto then get_rfm_score vals tag auto rv (ms - 1)
      else .error ⟨(quantList vals ms).map (roundTo rv)⟩ := by
  obtain ⟨m, rfl⟩ : ∃ m, ms = m + 2 := ⟨ms - 2, by omega⟩
  exact score_step vals tag auto rv m

/-- With the automatic adjustment enabled, get_rfm_score always returns ok. -/
theorem score_auto_ok (vals : List ℚ) (tag : String) (rv : ℕ) :
    ∀ ms, ∃ l, get_rfm_score vals tag true rv ms = .ok l := by
  intro ms
  induction ms with
  | zero => exact ⟨vals.map (fun _ => "1"), score_zero vals tag true rv⟩
  | succ n ih =>
    cases n with
    | zero => exact ⟨vals.map (fun _ => "1"), score_one vals tag true rv⟩
    | succ m =>
      by_cases hd : (quantList vals (m + 2)).Nodup
      · exact ⟨_, by rw [score_step, if_pos hd]⟩
      · obtain ⟨l, hl⟩ := ih
        exact ⟨l, by rw [score_step, if_neg hd, if_pos rfl]; exact hl⟩

/-! ### Claim theorems -/

/-- C1: with max_score > 1 and automatic adjustment disabled, get_rfm_score
raises QuantileDuplicate exactly when the computed quantile cut points
contain a duplicate; the error carries the quantile values rounded to
round_info_val decimals; and on the error the caller's table is unchanged
(the raise happens before the score column is assigned). -/
theorem C1_duplicate_error (vals : List ℚ) (hne : vals ≠ []) (tag : String)
    (htag : tag = "r" ∨ tag = "f" ∨ tag = "m") (rv ms : ℕ) (hms : 1 < ms) :
    ((∃ e, get_rfm_score vals tag false rv ms = .error e) ↔
      ¬ (quantList vals ms).Nodup) ∧
    (∀ e, get_rfm_score vals tag false rv ms = .error e →
      e.quantiles = (quantList vals ms).map (roundTo rv)) ∧
    (∀ (t : Table) (sc : String), getColQ t sc = some vals →
      ¬ (quantList vals ms).Nodup → scorePost t sc tag false rv ms = t) := by
  have hstep := score_ge2 vals tag false rv ms (by omega)
  refine ⟨⟨?_, ?_⟩, ?_, ?_⟩
  · rintro ⟨e, he⟩ hd
    rw [hstep, if_pos hd] at he
    cases he
  · intro hd
    rw [hstep, if_neg hd]
    exact ⟨_, rfl⟩
  · intro e he
    by_cases hd : (quantList vals ms).Nodup
    · rw [hstep, if_pos hd] at he
      cases he
    · rw [hstep, if_neg hd] at he
      simp only [Bool.false_eq_true, if_false] at he
      cases he
      rfl
  · intro t sc hcol hd
    simp only [scorePost, hcol]
    rw [hstep, if_neg hd]
    simp

/-- C1 witness: on the column [1, 1, 1] with max_score 3 the two quantiles
are both 1, so the duplicate error is raised and the table is unchanged. -/
theorem C1_duplicate_error_witness :
    (¬ (quantList [1, 1, 1] 3).Nodup) ∧
    (∃ e, get_rfm_score [1, 1, 1] "f" false 3 3 = .error e) ∧
    scorePost [("frequency", [Val.num 1, Val.num 1, Val.num 1])] "frequency" "f" false 3 3 =
      [("frequency", [Val.num 1, Val.num 1, Val.num 1])] := by
  have hq : quantList [1, 1, 1] 3 = [1, 1] := by
    have h1 : ⌊(2/3 : ℚ)⌋₊ = 0 := by
      rw [Nat.floor_eq_iff] <;> norm_num
    have h2 : ⌊(4/3 : ℚ)⌋₊ = 1 := by
      rw [Nat.floor_eq_iff] <;> norm_num
    norm_num [quantList, quantile, List.insertionSort, List.orderedInsert,
      List.range_succ, List.getD, h1, h2]
  have hd : ¬ (quantList [1, 1, 1] 3).Nodup := by
    rw [hq]
    simp
  have hcol : getColQ [("frequency", [Val.num 1, Val.num 1, Val.num 1])] "frequency" =
      some [1, 1, 1] := rfl
  have hc := C1_duplicate_error [1, 1, 1] (by simp) "f" (Or.inr (Or.inl rfl)) 3 3
    (by omega)
  exact ⟨hd, hc.1.mpr hd, hc.2.2 _ _ hcol hd⟩

/-- C2: with automatic adjustment enabled get_rfm_score always terminates
with an ok result, equal to a run without adjustment at some effective
max_score that is at most the requested one; and at max_score 1 the call
succeeds immediately with every score the string 1, for either value of
the adjustment flag. -/
theorem C2_auto_terminates (vals : List ℚ) (tag : String) (rv ms : ℕ) :
    (∃ ms' l, ms' ≤ ms ∧ get_rfm_score vals tag true rv ms = .ok l ∧
      get_rfm_score vals tag false rv ms' = .ok l) ∧
    (∀ auto, get_rfm_score vals tag auto rv 1 = .ok (vals.map (fun _ => "1"))) := by
  constructor
  · obtain ⟨l, hl⟩ := score_auto_ok vals tag rv ms
    obtain ⟨ms', hle, hok, _⟩ := score_ok_shape vals tag true rv ms l hl
    exact ⟨ms', l, hle, hl, hok⟩
  · intro auto
    exact score_one vals tag auto rv

/-- C10: at max_score 2 only one quantile cut point is computed, so the
duplicate check cannot fire: get_rfm_score succeeds and behaves identically
whether or not the automatic adjustment is enabled. -/
theorem C10_max_score_two_safe (vals : List ℚ) (tag : String) (auto : Bool)
    (rv : ℕ) :
    (∃ l, get_rfm_score vals tag auto rv 2 = .ok l) ∧
    get_rfm_score vals tag auto rv 2 = get_rfm_score vals tag false rv 2 := by
  have hnd : (quantList vals 2).Nodup := by
    unfold quantList
    norm_num [List.range_succ, List.range_zero]
  constructor
  · exact ⟨_, by rw [score_ge2 vals tag auto rv 2 (by omega), if_pos hnd]⟩
  · rw [score_ge2 vals tag auto rv 2 (by omega), score_ge2 vals tag false rv 2 (by omega),
      if_pos hnd, if_pos hnd]

/-- C3: on a nonempty metric column, a successful run of get_rfm_score
(possibly after adjustment) assigns one score per row, the scores are the
strings of 1..effective max_score and at least one score is produced, and
when the effective max_score exceeds 1 the scores are the pd.cut binning
over the widened edges [min - 1, quantiles, max + 1]. -/
theorem C3_score_range (vals : List ℚ) (hne : vals ≠ []) (tag : String)
    (auto : Bool) (rv ms : ℕ) (hms : 1 ≤ ms) (l : List String)
    (hok : get_rfm_score vals tag auto rv ms = .ok l) :
    l.length = vals.length ∧ l ≠ [] ∧
    ∃ ms', 1 ≤ ms' ∧ ms' ≤ ms ∧
      (∀ s ∈ l, ∃ j, 1 ≤ j ∧ j ≤ ms' ∧ s = toString j) ∧
      (2 ≤ ms' → l = vals.map (cutStr (binEdges vals ms') (labelsFor tag ms'))) := by
  obtain ⟨ms', hle, hok2, hshape⟩ := score_ok_shape vals tag auto rv ms l hok
  rcases hshape with ⟨hm, hl⟩ | ⟨h2, hnd, hl⟩
  · subst hl
    refine ⟨List.length_map vals _, by simpa using hne, 1, le_refl 1, hms, ?_, ?_⟩
    · intro s hs
      obtain ⟨v, _, hv⟩ := List.mem_map.mp hs
      exact ⟨1, le_refl 1, le_refl 1, by rw [← hv]; decide⟩
    · intro hcon
      omega
  · subst hl
    refine ⟨List.length_map vals _, by simpa using hne, ms', by omega, hle, ?_,
      fun _ => rfl⟩
    intro s hs
    obtain ⟨v, hv, hsv⟩ := List.mem_map.mp hs
    obtain ⟨i, hilt, heq, _⟩ := cutStr_spec vals ms' tag v hv
    have hik : i < ms' := by omega
    rw [← hsv, heq, labelsFor_getD tag ms' i hik]
    by_cases hr : tag = "r"
    · rw [if_pos hr]
      exact ⟨ms' - i, by omega, by omega, rfl⟩
    · rw [if_neg hr]
      exact ⟨i + 1, by omega, by omega, rfl⟩

/-- C3 witness: on the column [3, 7] at max_score 2 with tag f the run
succeeds with scores 1 and 2. -/
theorem C3_score_range_witness :
    (["1", "2"] : List String).length = ([3, 7] : List ℚ).length ∧
    (["1", "2"] : List String) ≠ [] ∧
    ∃ ms', 1 ≤ ms' ∧ ms' ≤ 2 ∧
      (∀ s ∈ (["1", "2"] : List String), ∃ j, 1 ≤ j ∧ j ≤ ms' ∧ s = toString j) ∧
      (2 ≤ ms' →
        (["1", "2"] : List String) =
          ([3, 7] : List ℚ).map (cutStr (binEdges [3, 7] ms') (labelsFor "f" ms'))) := by
  have h0 : ⌊(1/2 : ℚ)⌋₊ = 0 := by
    rw [Nat.floor_eq_iff] <;> norm_num
  have hok : get_rfm_score [3, 7] "f" false 3 2 = .ok ["1", "2"] := by
    rw [score_ge2 [3, 7] "f" false 3 2 (by omega)]
    norm_num [quantList, quantile, List.insertionSort, List.orderedInsert,
      List.range_succ, List.getD, h0, binEdges, listMin, listMax, cutStr, binIndex,
      goIdx, labelsFor]
    decide
  exact C3_score_range [3, 7] (by simp) "f" false 3 2 (by omega) ["1", "2"] hok

/-- C4: for a successful run, the score read as a number is antitone in the
metric value for the recency tag r (a strictly smaller recency gets a score
at least as large), and monotone for every other tag, in particular f and m
(a strictly larger value gets a score at least as large). -/
theorem C4_recency_inversion (vals : List ℚ) (auto : Bool) (rv ms : ℕ)
    (a b : ℕ) (ha : a < vals.length) (hb : b < vals.length)
    (hab : vals[a] < vals[b]) :
    (∀ l, get_rfm_score vals "r" auto rv ms = .ok l →
      ∃ ja jb, l[a]? = some (toString ja) ∧ l[b]? = some (toString jb) ∧
        1 ≤ jb ∧ jb ≤ ja) ∧
    (∀ tag l, tag ≠ "r" → get_rfm_score vals tag auto rv ms = .ok l →
      ∃ ja jb, l[a]? = some (toString ja) ∧ l[b]? = some (toString jb) ∧
        1 ≤ ja ∧ ja ≤ jb) := by
  have hav : vals[a] ∈ vals := List.getElem_mem ha
  have hbv : vals[b] ∈ vals := List.getElem_mem hb
  have hga : vals[a]? = some vals[a] := List.getElem?_eq_getElem ha
  have hgb : vals[b]? = some vals[b] := List.getElem?_eq_getElem hb
  constructor
  · intro l hok
    obtain ⟨ms', _, _, hshape⟩ := score_ok_shape vals "r" auto rv ms l hok
    rcases hshape with ⟨_, hl⟩ | ⟨h2, _, hl⟩
    · subst hl
      refine ⟨1, 1, ?_, ?_, le_refl 1, le_refl 1⟩
      · rw [List.getElem?_map, hga]
        simp only [Option.map_some']
        decide
      · rw [List.getElem?_map, hgb]
        simp only [Option.map_some']
        decide
    · subst hl
      obtain ⟨ia, hia, heqa, hbina⟩ := cutStr_spec vals ms' "r" vals[a] hav
      obtain ⟨ib, hib, heqb, hbinb⟩ := cutStr_spec vals ms' "r" vals[b] hbv
      have hmono : ia ≤ ib :=
        binIndex_mono (binEdges vals ms') vals[a] vals[b] (le_of_lt hab) ia ib
          hbina hbinb
      have hika : ia < ms' := by omega
      have hikb : ib < ms' := by omega
      refine ⟨ms' - ia, ms' - ib, ?_, ?_, by omega, by omega⟩
      · rw [List.getElem?_map, hga]
        simp only [Option.map_some']
        rw [heqa, labelsFor_getD "r" ms' ia hika, if_pos rfl]
      · rw [List.getElem?_map, hgb]
        simp only [Option.map_some']
        rw [heqb, labelsFor_getD "r" ms' ib hikb, if_pos rfl]
  · intro tag l htag hok
    obtain ⟨ms', _, _, hshape⟩ := score_ok_shape vals tag auto rv ms l hok
    rcases hshape with ⟨_, hl⟩ | ⟨h2, _, hl⟩
    · subst hl
      refine ⟨1, 1, ?_, ?_, le_refl 1, le_refl 1⟩
      · rw [List.getElem?_map, hga]
        simp only [Option.map_some']
        decide
      · rw [List.getElem?_map, hgb]
        simp only [Option.map_some']
        decide
    · subst hl
      obtain ⟨ia, hia, heqa, hbina⟩ := cutStr_spec vals ms' tag vals[a] hav
      obtain ⟨ib, hib, heqb, hbinb⟩ := cutStr_spec vals ms' tag vals[b] hbv
      have hmono : ia ≤ ib :=
        binIndex_mono (binEdges vals ms') vals[a] vals[b] (le_of_lt hab) ia ib
          hbina hbinb
      have hika : ia < ms' := by omega
      have hikb : ib < ms' := by omega
      refine ⟨ia + 1, ib + 1, ?_, ?_, by omega, by omega⟩
      · rw [List.getElem?_map, hga]
        simp only [Option.map_some']
        rw [heqa, labelsFor_getD tag ms' ia hika, if_neg htag]
      · rw [List.getElem?_map, hgb]
        simp only [Option.map_some']
        rw [heqb, labelsFor_getD tag ms' ib hikb, if_neg htag]

/-- C4 witness: on the column [3, 7] at max_score 2, with tag r the scores
are 2 then 1, and with tag f they are 1 then 2. -/
theorem C4_recency_inversion_witness :
    (∃ ja jb, (["2", "1"] : List String)[0]? = some (toString ja) ∧
      (["2", "1"] : List String)[1]? = some (toString jb) ∧ 1 ≤ jb ∧ jb ≤ ja) ∧
    (∃ ja jb, (["1", "2"] : List String)[0]? = some (toString ja) ∧
      (["1", "2"] : List String)[1]? = some (toString jb) ∧ 1 ≤ ja ∧ ja ≤ jb) := by
  have h0 : ⌊(1/2 : ℚ)⌋₊ = 0 := by
    rw [Nat.floor_eq_iff] <;> norm_num
  have hokr : get_rfm_score [3, 7] "r" false 3 2 = .ok ["2", "1"] := by
    rw [score_ge2 [3, 7] "r" false 3 2 (by omega)]
    norm_num [quantList, quantile, List.insertionSort, List.orderedInsert,
      List.range_succ, List.getD, h0, binEdges, listMin, listMax, cutStr, binIndex,
      goIdx, labelsFor]
    decide
  have hokf : get_rfm_score [3, 7] "f" false 3 2 = .ok ["1", "2"] := by
    rw [score_ge2 [3, 7] "f" false 3 2 (by omega)]
    norm_num [quantList, quantile, List.insertionSort, List.orderedInsert,
      List.range_succ, List.getD, h0, binEdges, listMin, listMax, cutStr, binIndex,
      goIdx, labelsFor]
    decide
  have hc := C4_recency_inversion [3, 7] false 3 2 0 1 (by norm_num) (by norm_num)
    (by norm_num)
  exact ⟨hc.1 ["2", "1"] hokr, hc.2 "f" ["1", "2"] (by decide) hokf⟩

theorem quantList_c5 : quantList [1, 1, 1, 1, 2, 2, 2, 10] 3 = [1, 2] := by
  have h1 : ⌊(7/3 : ℚ)⌋₊ = 2 := by rw [Nat.floor_eq_iff] <;> norm_num
  have h2 : ⌊(14/3 : ℚ)⌋₊ = 4 := by rw [Nat.floor_eq_iff] <;> norm_num
  norm_num [quantList, quantile, List.insertionSort, List.orderedInsert,
    List.range_succ, List.getD, h1, h2]

theorem quantList_c5_nodup : (quantList [1, 1, 1, 1, 2, 2, 2, 10] 3).Nodup := by
  rw [quantList_c5]
  norm_num

theorem eval_c5 (auto : Bool) : get_rfm_score [1, 1, 1, 1, 2, 2, 2, 10] "f" auto 3 3 =
    .ok ["1", "1", "1", "1", "2", "2", "2", "3"] := by
  rw [score_ge2 _ _ _ _ 3 (by omega), if_pos quantList_c5_nodup]
  norm_num [binEdges, quantList_c5, listMin, listMax, List.foldl, min_def, max_def,
    cutStr, binIndex, goIdx, labelsFor]
  decide

/-- C5 counterexample: on the frequencies [1,1,1,1,2,2,2,10] with
max_score 3 the linear-interpolation quantiles at 1/3 and 2/3 are 1 and 2,
which are distinct, so get_rfm_score with adjustment disabled does NOT
raise the duplicate error, contradicting the claim; it succeeds directly. -/
theorem C5_counterexample :
    (¬ ∃ e, get_rfm_score [1, 1, 1, 1, 2, 2, 2, 10] "f" false 3 3 = .error e) ∧
    quantList [1, 1, 1, 1, 2, 2, 2, 10] 3 = [1, 2] := by
  refine ⟨?_, quantList_c5⟩
  rintro ⟨e, he⟩
  rw [eval_c5 false] at he
  cases he

/-- C5 amended: on the frequencies [1,1,1,1,2,2,2,10] with max_score 3 the
two quantiles are the distinct values 1 and 2, so with adjustment disabled
the call succeeds without raising, with adjustment enabled no retry occurs
and the result is identical, and the scores take exactly three distinct
values. -/
theorem C5_concrete_scenario :
    get_rfm_score [1, 1, 1, 1, 2, 2, 2, 10] "f" false 3 3 =
      .ok ["1", "1", "1", "1", "2", "2", "2", "3"] ∧
    get_rfm_score [1, 1, 1, 1, 2, 2, 2, 10] "f" true 3 3 =
      .ok ["1", "1", "1", "1", "2", "2", "2", "3"] ∧
    (["1", "1", "1", "1", "2", "2", "2", "3"] : List String).dedup.length = 3 := by
  exact ⟨eval_c5 false, eval_c5 true, by decide⟩

theorem map_roundtrip {A B : Type} (f : A -> B) (g : B -> A) (l : List A)
    (h : forall a, g (f a) = a) : (l.map f).map g = l := by
  rw [List.map_map]
  have hfg : (g ∘ f) = fun a => a := funext h
  rw [hfg]
  simp

/-- C6 counterexample: with the caller-supplied time column named ts, the
transaction-count column of the result keeps the name ts: the rename
targets the literal column name order_approved_at, so the result columns
are not recency, frequency, monetary as claimed. -/
theorem C6_counterexample :
    get_rfm_values_columns "cid" "price" "ts" ≠
      ["cid", "recency", "frequency", "monetary"] ∧
    get_rfm_values_columns "cid" "price" "ts" =
      ["cid", "recency", "ts", "monetary"] := by
  constructor <;> decide

/-- C6 amended: one row per customer, with recency the minimum of the whole
days before now, frequency the count of in-window transactions and monetary
their summed amounts; the result columns are unit_id, recency, monetary and
a count column that is named frequency only when the caller's time column is
literally order_approved_at, and otherwise keeps the caller's time-column
name (hypotheses rule out colliding column names). -/
theorem C6_metric_extraction (unit_id money time : String)
    (h1 : money ≠ "days_before") (h2 : time ≠ "days_before") (h3 : time ≠ money)
    (h4 : unit_id ≠ money) (h5 : unit_id ≠ "order_approved_at")
    (h6 : unit_id ≠ "days_before")
    (txns : List Txn) (now th : ℚ) :
    get_rfm_values_columns unit_id money time =
      [unit_id, "recency",
        if time = "order_approved_at" then "frequency" else time, "monetary"] ∧
    ((get_rfm_values txns now th).map (fun r => r.cust)).Nodup ∧
    (∀ r ∈ get_rfm_values txns now th,
      r.frequency = ((txns.filter (inWindow now th)).filter
        (fun x => x.cust == r.cust)).length ∧
      r.monetary = (((txns.filter (inWindow now th)).filter
        (fun x => x.cust == r.cust)).map (fun x => x.amount)).sum ∧
      r.recency = listMinZ (((txns.filter (inWindow now th)).filter
        (fun x => x.cust == r.cust)).map (fun x => ⌊now - x.tstamp⌋))) := by
  refine ⟨?_, ?_, ?_⟩
  · simp only [get_rfm_values_columns, renameMap, List.map_cons, List.map_nil,
      if_neg h4, if_neg h5, if_neg h6, if_neg (Ne.symm h1), if_neg h3, if_neg h2,
      if_pos rfl]
    norm_num
    decide
  · unfold get_rfm_values custsOf
    rw [map_roundtrip _ _ _ (fun c => rfl)]
    exact List.nodup_dedup _
  · intro r hr
    unfold get_rfm_values at hr
    obtain ⟨c, _, hrc⟩ := List.mem_map.mp hr
    subst hrc
    exact ⟨rfl, rfl, rfl⟩

/-- C6 witness: one transaction of amount 100 at now with a 30-day horizon
gives the single metric row (recency 0, frequency 1, monetary 100), and the
caller's column names cid, price, ts yield the columns
[cid, recency, ts, monetary]. -/
theorem C6_metric_extraction_witness :
    get_rfm_values_columns "cid" "price" "ts" =
      ["cid", "recency",
        if "ts" = "order_approved_at" then "frequency" else "ts", "monetary"] ∧
    (⟨"a", 0, 1, 100⟩ : RfmRow).frequency =
      ((([⟨"a", 100, 0⟩] : List Txn).filter (inWindow 0 30)).filter
        (fun x => x.cust == (⟨"a", 0, 1, 100⟩ : RfmRow).cust)).length ∧
    (⟨"a", 0, 1, 100⟩ : RfmRow).monetary =
      (((([⟨"a", 100, 0⟩] : List Txn).filter (inWindow 0 30)).filter
        (fun x => x.cust == (⟨"a", 0, 1, 100⟩ : RfmRow).cust)).map
          (fun x => x.amount)).sum := by
  have hmem : (⟨"a", 0, 1, 100⟩ : RfmRow) ∈ get_rfm_values [⟨"a", 100, 0⟩] 0 30 := by
    have hval : get_rfm_values [⟨"a", 100, 0⟩] 0 30 = [⟨"a", 0, 1, 100⟩] := by
      norm_num [get_rfm_values, custsOf, inWindow, listMinZ, List.filter, List.dedup]
    rw [hval]
    exact List.mem_singleton.mpr rfl
  have hc := C6_metric_extraction "cid" "price" "ts" (by decide) (by decide)
    (by decide) (by decide) (by decide) (by decide) [⟨"a", 100, 0⟩] 0 30
  exact ⟨hc.1, (hc.2.2 _ hmem).1, (hc.2.2 _ hmem).2.1⟩

/-- C7: a transaction outside the inclusive window
[now - time_horizon, now] contributes nothing: appending it to the input
leaves the result unchanged; and a customer all of whose transactions are
outside the window is absent from the result. -/
theorem C7_windowing (txns : List Txn) (now th : ℚ) (x : Txn)
    (hx : inWindow now th x = false) (c : String)
    (hc : ∀ y ∈ txns, y.cust = c → inWindow now th y = false) :
    get_rfm_values (txns ++ [x]) now th = get_rfm_values txns now th ∧
    ∀ r ∈ get_rfm_values txns now th, r.cust ≠ c := by
  constructor
  · unfold get_rfm_values
    rw [List.filter_append]
    simp [List.filter, hx]
  · intro r hr hrc
    unfold get_rfm_values at hr
    obtain ⟨cc, hcc, hrcc⟩ := List.mem_map.mp hr
    have hcm : cc ∈ (txns.filter (inWindow now th)).map (fun y => y.cust) :=
      List.mem_dedup.mp hcc
    obtain ⟨y, hy, hyc⟩ := List.mem_map.mp hcm
    have hyt : y ∈ txns := List.mem_of_mem_filter hy
    have hyw : inWindow now th y = true := List.of_mem_filter hy
    have hcust : r.cust = cc := by rw [← hrcc]
    have : inWindow now th y = false := hc y hyt (by rw [hyc, ← hcust, hrc])
    rw [this] at hyw
    cases hyw

/-- C7 witness: a transaction 100 days in the past with a 30-day horizon is
dropped, and the customer b having only that transaction is absent. -/
theorem C7_windowing_witness :
    get_rfm_values ([⟨"a", 1, 0⟩] ++ [⟨"b", 1, -100⟩]) 0 30 =
      get_rfm_values [⟨"a", 1, 0⟩] 0 30 ∧
    (⟨"a", 0, 1, 1⟩ : RfmRow).cust ≠ "b" := by
  have hx : inWindow 0 30 (⟨"b", 1, -100⟩ : Txn) = false := by
    norm_num [inWindow]
  have hc : ∀ y ∈ ([⟨"a", 1, 0⟩] : List Txn), y.cust = "b" →
      inWindow 0 30 y = false := by
    intro y hy hyc
    rw [List.mem_singleton.mp hy] at hyc
    exact absurd hyc (by decide)
  have hmem : (⟨"a", 0, 1, 1⟩ : RfmRow) ∈ get_rfm_values [⟨"a", 1, 0⟩] 0 30 := by
    have hval : get_rfm_values [⟨"a", 1, 0⟩] 0 30 = [⟨"a", 0, 1, 1⟩] := by
      norm_num [get_rfm_values, custsOf, inWindow, listMinZ, List.filter, List.dedup]
    rw [hval]
    exact List.mem_singleton.mpr rfl
  have h := C7_windowing [⟨"a", 1, 0⟩] 0 30 ⟨"b", 1, -100⟩ hx "b" hc
  exact ⟨h.1, h.2 _ hmem⟩

/-- C8: every segment key of the aggregation is the concatenation
recency-frequency-monetary of the scores of some input row, the amounts sum
to the number of input rows, and the output is sorted by key in descending
lexicographic order. -/
theorem C8_segment_agg (rows : List ScoredRow) :
    (∀ p ∈ get_rfm_agg rows, ∃ row ∈ rows, p.1 = rfmKey row) ∧
    ((get_rfm_agg rows).map (fun p => p.2)).sum = rows.length ∧
    List.Sorted (fun a b => b ≤ a) ((get_rfm_agg rows).map (fun p => p.1)) := by
  refine ⟨?_, ?_, ?_⟩
  · intro p hp
    unfold get_rfm_agg at hp
    obtain ⟨k, hk, hpk⟩ := List.mem_map.mp hp
    have hk2 : k ∈ List.insertionSort (fun a b => a ≤ b) (rows.map rfmKey).dedup :=
      List.mem_reverse.mp hk
    have hk3 : k ∈ (rows.map rfmKey).dedup :=
      (List.perm_insertionSort (fun a b => a ≤ b) (rows.map rfmKey).dedup).mem_iff.mp hk2
    have hk4 : k ∈ rows.map rfmKey := List.mem_dedup.mp hk3
    obtain ⟨row, hrow, hrk⟩ := List.mem_map.mp hk4
    exact ⟨row, hrow, by rw [← hpk, hrk]⟩
  · unfold get_rfm_agg
    rw [List.map_map]
    have hcomp : ((fun p : String × ℕ => p.2) ∘
        (fun k => (k, (rows.map rfmKey).count k))) =
        fun k => (rows.map rfmKey).count k := rfl
    rw [hcomp]
    have hperm : List.Perm
        ((List.insertionSort (fun a b => a ≤ b)
          (rows.map rfmKey).dedup).reverse.map (fun k => (rows.map rfmKey).count k))
        (((rows.map rfmKey).dedup).map (fun k => (rows.map rfmKey).count k)) := by
      refine List.Perm.map _ ?_
      exact (List.reverse_perm _).trans
        (List.perm_insertionSort (fun a b => a ≤ b) _)
    rw [hperm.sum_eq]
    rw [List.sum_map_count_dedup_eq_length]
    exact List.length_map rows rfmKey
  · unfold get_rfm_agg
    rw [map_roundtrip _ _ _ (fun k => rfl)]
    rw [List.Sorted, List.pairwise_reverse]
    exact List.sorted_insertionSort (fun a b => a ≤ b) (rows.map rfmKey).dedup

/-- C8 witness: three customers with keys 321, 321, 111 aggregate to the
segments 321 (amount 2) and 111 (amount 1), descending, summing to 3. -/
theorem C8_segment_agg_witness :
    (∃ row ∈ ([⟨"u1", "3", "2", "1"⟩, ⟨"u2", "3", "2", "1"⟩,
      ⟨"u3", "1", "1", "1"⟩] : List ScoredRow),
      (("321", 2) : String × ℕ).1 = rfmKey row) ∧
    ((get_rfm_agg [⟨"u1", "3", "2", "1"⟩, ⟨"u2", "3", "2", "1"⟩,
      ⟨"u3", "1", "1", "1"⟩]).map (fun p => p.2)).sum = 3 := by
  have hagg : get_rfm_agg [⟨"u1", "3", "2", "1"⟩, ⟨"u2", "3", "2", "1"⟩,
      ⟨"u3", "1", "1", "1"⟩] = [("321", 2), ("111", 1)] := by
    norm_num [get_rfm_agg, rfmKey, List.insertionSort, List.orderedInsert,
      List.dedup, List.count, List.countP]
    decide
  have hc := C8_segment_agg [⟨"u1", "3", "2", "1"⟩, ⟨"u2", "3", "2", "1"⟩,
    ⟨"u3", "1", "1", "1"⟩]
  refine ⟨hc.1 ("321", 2) ?_, hc.2.1⟩
  rw [hagg]
  exact List.mem_cons_self _ _

/-- C9 counterexample: Score Assignment is not pure in its input table: on
the table with the single column frequency = [1, 2], a successful call
leaves the caller's table with an added score column f, so the input table
is changed. -/
theorem C9_counterexample :
    scorePost [("frequency", [Val.num 1, Val.num 2])] "frequency" "f" false 3 2 ≠
      [("frequency", [Val.num 1, Val.num 2])] := by
  have h0 : ⌊(1/2 : ℚ)⌋₊ = 0 := by rw [Nat.floor_eq_iff] <;> norm_num
  have hscore : get_rfm_score [1, 2] "f" false 3 2 = .ok ["1", "2"] := by
    rw [score_ge2 _ _ _ _ 2 (by omega)]
    norm_num [quantList, quantile, List.insertionSort, List.orderedInsert,
      List.range_succ, List.getD, h0, binEdges, listMin, listMax, cutStr,
      binIndex, goIdx, labelsFor]
    decide
  have hcol : getColQ [("frequency", [Val.num 1, Val.num 2])] "frequency" =
      some [1, 2] := rfl
  have hpost : scorePost [("frequency", [Val.num 1, Val.num 2])] "frequency" "f"
      false 3 2 =
      [("frequency", [Val.num 1, Val.num 2]), ("f", [Val.str "1", Val.str "2"])] := by
    simp only [scorePost, hcol]
    rw [hscore]
    rfl
  rw [hpost]
  intro h
  have hlen := congrArg List.length h
  simp at hlen

/-- C9 amended: Metric Extraction works on a filtered copy, but Score
Assignment and Segment Aggregation assign their new column directly on the
passed-in table: after a successful scoring call the caller's table equals
the input with the score column appended (hence differs from the input when
the score name is fresh), and after aggregation it equals the input with
the concatenated rfm key column appended. -/
theorem C9_inplace_mutation (t : Table) (sc name : String) (auto : Bool)
    (rv ms : ℕ) (vals : List ℚ) (hcol : getColQ t sc = some vals)
    (l : List String) (hok : get_rfm_score vals name auto rv ms = .ok l)
    (hfresh : ∀ p ∈ t, p.1 ≠ name) :
    (scorePost t sc name auto rv ms = t ++ [(name, l.map Val.str)] ∧
      scorePost t sc name auto rv ms ≠ t) ∧
    (∀ (t2 : Table) (rn fn mn : String) (rs fs msv : List String),
      getColS t2 rn = some rs → getColS t2 fn = some fs →
      getColS t2 mn = some msv → (∀ p ∈ t2, p.1 ≠ "rfm") →
      aggPost t2 rn fn mn =
        t2 ++ [("rfm", ((List.zipWith (fun a b => a ++ b) rs
          (List.zipWith (fun a b => a ++ b) fs msv))).map Val.str)] ∧
      aggPost t2 rn fn mn ≠ t2) := by
  constructor
  · have hany : t.any (fun p => p.1 == name) = false := by
      rw [List.any_eq_false]
      intro p hp
      simpa using hfresh p hp
    have hpost : scorePost t sc name auto rv ms = t ++ [(name, l.map Val.str)] := by
      simp only [scorePost, hcol]
      rw [hok]
      unfold setCol
      rw [hany]
      simp
    refine ⟨hpost, ?_⟩
    rw [hpost]
    intro h
    have hlen := congrArg List.length h
    simp at hlen
  · intro t2 rn fn mn rs fs msv hr hf hm hfresh2
    have hany : t2.any (fun p => p.1 == "rfm") = false := by
      rw [List.any_eq_false]
      intro p hp
      simpa using hfresh2 p hp
    have hpost : aggPost t2 rn fn mn =
        t2 ++ [("rfm", ((List.zipWith (fun a b => a ++ b) rs
          (List.zipWith (fun a b => a ++ b) fs msv))).map Val.str)] := by
      simp only [aggPost, hr, hf, hm]
      unfold setCol
      rw [hany]
      simp
    refine ⟨hpost, ?_⟩
    rw [hpost]
    intro h
    have hlen := congrArg List.length h
    simp at hlen

/-- C9 witness: concrete tables showing the appended f column after scoring
and the appended rfm column after aggregation. -/
theorem C9_inplace_mutation_witness :
    (scorePost [("frequency", [Val.num 3, Val.num 7])] "frequency" "f" false 3 2 =
      [("frequency", [Val.num 3, Val.num 7])] ++ [("f", [Val.str "1", Val.str "2"])] ∧
     scorePost [("frequency", [Val.num 3, Val.num 7])] "frequency" "f" false 3 2 ≠
      [("frequency", [Val.num 3, Val.num 7])]) ∧
    (aggPost [("r", [Val.str "1"]), ("f", [Val.str "2"]), ("m", [Val.str "3"])]
        "r" "f" "m" =
      [("r", [Val.str "1"]), ("f", [Val.str "2"]), ("m", [Val.str "3"])] ++
        [("rfm", [Val.str "123"])] ∧
     aggPost [("r", [Val.str "1"]), ("f", [Val.str "2"]), ("m", [Val.str "3"])]
        "r" "f" "m" ≠
      [("r", [Val.str "1"]), ("f", [Val.str "2"]), ("m", [Val.str "3"])]) := by
  have h0 : ⌊(1/2 : ℚ)⌋₊ = 0 := by rw [Nat.floor_eq_iff] <;> norm_num
  have hok : get_rfm_score [3, 7] "f" false 3 2 = .ok ["1", "2"] := by
    rw [score_ge2 _ _ _ _ 2 (by omega)]
    norm_num [quantList, quantile, List.insertionSort, List.orderedInsert,
      List.range_succ, List.getD, h0, binEdges, listMin, listMax, cutStr,
      binIndex, goIdx, labelsFor]
    decide
  have hc := C9_inplace_mutation [("frequency", [Val.num 3, Val.num 7])]
    "frequency" "f" false 3 2 [3, 7] rfl ["1", "2"] hok (by decide)
  have hagg := hc.2 [("r", [Val.str "1"]), ("f", [Val.str "2"]), ("m", [Val.str "3"])]
    "r" "f" "m" ["1"] ["2"] ["3"] rfl rfl rfl (by decide)
  have hstr : (List.zipWith (fun a b => a ++ b) ["1"]
      (List.zipWith (fun a b => a ++ b) ["2"] ["3"])).map Val.str =
      [Val.str "123"] := by decide
  refine ⟨hc.1, ?_, ?_⟩
  · rw [← hstr]
    exact hagg.1
  · exact hagg.2
